import Mathlib

/-!
Shallow embedding of the Upwork job analyzer
(`src/Job-Applications/automation/scripts/job-analyzer.py`) and proofs about it.

Python strings are modelled as Lean `String`, Python `int` as `Int`, dictionaries
with insertion-order iteration as association lists, and fallible code as
`Except String`.  Python's `str.lower` and the regex class `\d` are modelled over
ASCII characters (`Char.toLower`, `Char.isDigit`); all taxonomy keywords and the
texts in the claims are ASCII.
-/

namespace JobAnalyzer

/-- Model of Python `str.lower()` (ASCII case folding). -/
def lowerStr (s : String) : String := ⟨s.toList.map Char.toLower⟩

/-- `leadMatch needle hay`: the first list is a prefix of the second. -/
def leadMatch : List Char → List Char → Bool
  | [], _ => true
  | _ :: _, [] => false
  | c :: cs, d :: ds => decide (c = d) && leadMatch cs ds

/-- `containsSub hay needle`: the second list occurs contiguously in the first.
Models Python's substring test `needle in hay`. -/
def containsSub : List Char → List Char → Bool
  | [], needle => needle.isEmpty
  | c :: cs, needle => leadMatch needle (c :: cs) || containsSub cs needle

/-- `strContains text kw` models the Python expression `kw in text`. -/
def strContains (text kw : String) : Bool := containsSub text.toList kw.toList

/-- The static taxonomy `self.skill_keywords` from `UpworkJobAnalyzer.__init__`,
as an ordered association list (Python dicts iterate in insertion order). -/
def skillKeywords : List (String × List (String × List String)) :=
  [ ("web_development",
      [ ("frontend", ["react", "vue", "angular", "javascript", "typescript", "html", "css"])
      , ("backend", ["node", "python", "php", "laravel", "django", "express"])
      , ("fullstack", ["full-stack", "fullstack", "mern", "mean", "lamp"])
      , ("wordpress", ["wordpress", "wp", "elementor", "gutenberg", "woocommerce"]) ])
  , ("mobile_apps",
      [ ("ios", ["ios", "swift", "objective-c", "xcode"])
      , ("android", ["android", "kotlin", "java", "android studio"])
      , ("react_native", ["react native", "expo"])
      , ("flutter", ["flutter", "dart"]) ])
  , ("ai_ml",
      [ ("chatbots", ["chatbot", "bot", "conversational ai", "dialogue"])
      , ("automation", ["automation", "scraping", "workflow", "zapier"])
      , ("data_analysis", ["data analysis", "pandas", "numpy", "visualization"])
      , ("machine_learning", ["machine learning", "ai", "tensorflow", "pytorch"]) ])
  , ("design",
      [ ("ui_ux", ["ui", "ux", "user experience", "user interface"])
      , ("graphic_design", ["logo", "branding", "graphic design", "photoshop"])
      , ("branding", ["brand identity", "brand design", "corporate identity"])
      , ("figma", ["figma", "sketch", "adobe xd"]) ]) ]

/-- The static table `self.budget_ranges`; `none` models `float('inf')`. -/
def budgetRanges : List (String × Nat × Option Nat) :=
  [ ("micro", 0, some 50)
  , ("small", 50, some 500)
  , ("medium", 500, some 5000)
  , ("large", 5000, none) ]

/-- Keep the first occurrence of each string, dropping later duplicates. -/
def dedupFirstAux (seen : List String) : List String → List String
  | [] => []
  | x :: xs => if x ∈ seen then dedupFirstAux seen xs else x :: dedupFirstAux (x :: seen) xs

/-- Models `list(set(found_skills))`.  CPython's set iteration order is
hash-dependent and unspecified; we fix the deterministic first-occurrence order.
Downstream code consumes only the length and membership of this list, plus the
relative order of *distinct* skills when counting batch frequencies. -/
def dedupFirst (l : List String) : List String := dedupFirstAux [] l

/-- `UpworkJobAnalyzer.extract_skills`: every taxonomy keyword that occurs as a
substring of the lower-cased `description + " " + title`. -/
def extract_skills (description title : String) : List String :=
  let text := lowerStr (description ++ " " ++ title)
  let found := skillKeywords.flatMap fun cp =>
    cp.2.flatMap fun sp => sp.2.filter fun keyword => strContains text keyword
  dedupFirst found

/-- Number of keywords from the list that occur in the text (the inner
`if keyword in text: score += 1` loop). -/
def keywordHits (keywords : List String) (text : String) : Nat :=
  (keywords.filter fun keyword => strContains text keyword).length

/-- Score of one top-level category: keyword hits summed over its subcategories. -/
def categoryScore (subs : List (String × List String)) (text : String) : Nat :=
  (subs.map fun sp => keywordHits sp.2 text).sum

/-- The `category_scores` dict built by `categorize_job`, in insertion order. -/
def categoryScores (title description : String) : List (String × Nat) :=
  let text := lowerStr (title ++ " " ++ description)
  skillKeywords.map fun cp => (cp.1, categoryScore cp.2 text)

/-- The `subcategory_scores` dict built by `categorize_job` for the chosen
category, in insertion order. -/
def subcategoryScores (cat : String) (title description : String) : List (String × Nat) :=
  let text := lowerStr (title ++ " " ++ description)
  ((skillKeywords.lookup cat).getD []).map fun sp => (sp.1, keywordHits sp.2 text)

/-- One step of Python's `max(d, key=d.get)`: CPython keeps the current
maximum and replaces it only on a strictly greater value, so the first
maximal key in iteration order wins. -/
def pyMaxStep (b q : String × Nat) : String × Nat := if b.2 < q.2 then q else b

/-- Python's `max(d, key=d.get)` over an insertion-ordered dict. -/
def pyMaxKey : List (String × Nat) → String
  | [] => ""
  | p :: ps => (ps.foldl pyMaxStep p).1

/-- `UpworkJobAnalyzer.categorize_job` (the `skills` argument is unused in the
source as well). -/
def categorize_job (skills : List String) (title description : String) : String × String :=
  let _ := skills
  let main_category := pyMaxKey (categoryScores title description)
  (main_category, pyMaxKey (subcategoryScores main_category title description))

/-- Models `budget_text.replace(',', '')`. -/
def stripCommas (s : String) : String := ⟨s.toList.filter fun c => decide (c ≠ ',')⟩

/-- Value of a run of decimal digit characters. -/
def digitsToNat (ds : List Char) : Nat :=
  ds.foldl (fun n c => 10 * n + (c.toNat - '0'.toNat)) 0

/-- Maximal runs of decimal digits, models `re.findall(r'\d+', s)`;
`cur` holds the current run reversed. -/
def digitRunsAux : List Char → List Char → List (List Char)
  | [], cur => if cur = [] then [] else [cur.reverse]
  | c :: cs, cur =>
    if c.isDigit then digitRunsAux cs (c :: cur)
    else if cur = [] then digitRunsAux cs [] else cur.reverse :: digitRunsAux cs []

/-- The numbers `re.findall(r'\d+', s)` extracts, as natural numbers. -/
def findNumbers (s : String) : List Nat := (digitRunsAux s.toList []).map digitsToNat

/-- The loop condition `min_val <= max_budget < max_val` (with `none` = `inf`). -/
def inRange (lo : Nat) (hi : Option Nat) (m : Nat) : Bool :=
  decide (lo ≤ m) && (match hi with | some h => decide (m < h) | none => true)

/-- The `for range_name, (min_val, max_val) in self.budget_ranges.items()` loop,
with the trailing `return "large"` fallback. -/
def matchRange : List (String × Nat × Option Nat) → Nat → String
  | [], _ => "large"
  | (range_name, lo, hi) :: rest, m =>
    if inRange lo hi m then range_name else matchRange rest m

/-- `UpworkJobAnalyzer.extract_budget`.  Python's `max` over the (guarded
nonempty) list of parsed numbers is modelled as `foldl Nat.max 0`, which agrees
with it on nonempty lists of naturals. -/
def extract_budget (budget_text : String) : String :=
  if budget_text = "" then "unknown"
  else
    let numbers := findNumbers (stripCommas budget_text)
    if numbers = [] then "unknown"
    else matchRange budgetRanges (numbers.foldl Nat.max 0)

/-- The `JobPost` dataclass. -/
structure JobPost where
  job_id : String
  title : String
  budget : String
  timeline : String
  skills_required : List String
  client_location : String
  client_history : String
  proposals : Int
  description : String
  opportunity_score : Int
  category : String
  subcategory : String
  notes : String := ""
deriving DecidableEq, Repr

/-- The `budget_bonus` dict of `calculate_opportunity_score` together with the
`.get(job.budget, 0)` default. -/
def budget_bonus (tier : String) : Int :=
  if tier = "micro" then 0
  else if tier = "small" then 2
  else if tier = "medium" then 4
  else if tier = "large" then 6
  else 0

/-- The score accumulated by `calculate_opportunity_score` before the final
`min(max(score, 1), 10)` clamp. -/
def opportunityScoreRaw (job : JobPost) : Int :=
  5 + budget_bonus job.budget
    + (if job.proposals < 10 then 3
       else if job.proposals < 25 then 1
       else if job.proposals > 50 then -2
       else 0)
    + (if job.skills_required.length > 0
       then min (job.skills_required.length : Int) 3
       else 0)
    + (if strContains (lowerStr job.client_history) "established" then 1 else 0)

/-- `UpworkJobAnalyzer.calculate_opportunity_score`. -/
def calculate_opportunity_score (job : JobPost) : Int :=
  min (max (opportunityScoreRaw job) 1) 10

/-- A dynamically-typed value that may sit in the `proposals` field of a raw
record (`Dict[str, Any]`). -/
inductive PyVal where
  | vint (n : Int)
  | vstr (s : String)
  | vnone
deriving DecidableEq, Repr

/-- Model of Python `int(s)` on a string: strip surrounding whitespace, then an
optional sign followed by a nonempty run of decimal digits; anything else raises
`ValueError`.  (Underscored literals and non-ASCII digits are not modelled.) -/
def parseIntStr (s : String) : Option Int :=
  let t := ((s.toList.dropWhile Char.isWhitespace).reverse.dropWhile Char.isWhitespace).reverse
  match t with
  | [] => none
  | c :: cs =>
    let signed : Int × List Char :=
      if c = '-' then (-1, cs) else if c = '+' then (1, cs) else (1, c :: cs)
    if !signed.2.isEmpty && signed.2.all Char.isDigit
    then some (signed.1 * (digitsToNat signed.2 : Int))
    else none

/-- Model of the Python builtin `int(...)` applied to a raw field value. -/
def pyInt : PyVal → Except String Int
  | .vint n => .ok n
  | .vstr s =>
    match parseIntStr s with
    | some n => .ok n
    | none => .error "invalid literal for int() with base 10"
  | .vnone => .error "int() argument must not be NoneType"

/-- A raw input record (`job_data : Dict[str, Any]`).  `none` models an absent
key, so `.getD` below models `job_data.get(key, default)`.  Text fields are
typed as strings; `proposals`, the one field the source coerces with `int()`,
may hold an arbitrary value. -/
structure RawJob where
  id : Option String := none
  title : Option String := none
  description : Option String := none
  budget : Option String := none
  timeline : Option String := none
  client_location : Option String := none
  client_history : Option String := none
  proposals : Option PyVal := none
  notes : Option String := none
deriving DecidableEq, Repr

/-- `UpworkJobAnalyzer.process_job_post`.  The only failing operation is the
`int(job_data.get('proposals', 0))` coercion; its `ValueError`/`TypeError` is
modelled as `Except.error`. -/
def process_job_post (job_data : RawJob) : Except String JobPost :=
  let skills := extract_skills (job_data.description.getD "") (job_data.title.getD "")
  let cat := categorize_job skills (job_data.title.getD "") (job_data.description.getD "")
  match pyInt (job_data.proposals.getD (.vint 0)) with
  | .error e => .error e
  | .ok p =>
    let job : JobPost :=
      { job_id := job_data.id.getD ""
      , title := job_data.title.getD ""
      , budget := extract_budget (job_data.budget.getD "")
      , timeline := job_data.timeline.getD ""
      , skills_required := skills
      , client_location := job_data.client_location.getD ""
      , client_history := job_data.client_history.getD ""
      , proposals := p
      , description := job_data.description.getD ""
      , opportunity_score := 0
      , category := cat.1
      , subcategory := cat.2
      , notes := job_data.notes.getD "" }
    .ok { job with opportunity_score := calculate_opportunity_score job }

/-- `d[k] = d.get(k, 0) + 1` on an insertion-ordered dict: bump the existing
entry, or append a fresh one at the end. -/
def dictIncr {κ : Type} [DecidableEq κ] (d : List (κ × Nat)) (k : κ) : List (κ × Nat) :=
  if d.any fun p => decide (p.1 = k)
  then d.map fun p => if p.1 = k then (p.1, p.2 + 1) else p
  else d ++ [(k, 1)]

/-- `UpworkJobAnalyzer._analyze_categories`. -/
def analyze_categories (jobs : List JobPost) : List (String × Nat) :=
  jobs.foldl (fun d job => dictIncr d (job.category ++ "." ++ job.subcategory)) []

/-- `UpworkJobAnalyzer._analyze_budgets`. -/
def analyze_budgets (jobs : List JobPost) : List (String × Nat) :=
  jobs.foldl (fun d job => dictIncr d job.budget) []

/-- The `competitions` dict of `_analyze_competition`. -/
structure CompetitionDist where
  low : Nat
  medium : Nat
  high : Nat
deriving DecidableEq, Repr

/-- The per-job bucket update of `_analyze_competition`. -/
def competitionStep (c : CompetitionDist) (p : Int) : CompetitionDist :=
  if p < 10 then { c with low := c.low + 1 }
  else if p < 25 then { c with medium := c.medium + 1 }
  else { c with high := c.high + 1 }

/-- Return value of `_analyze_competition`; the Python float average is
modelled as an exact rational. -/
structure CompetitionView where
  distribution : CompetitionDist
  average_proposals : Rat
deriving DecidableEq, Repr

/-- `UpworkJobAnalyzer._analyze_competition`. -/
def analyze_competition (jobs : List JobPost) : CompetitionView :=
  let dist := jobs.foldl (fun c job => competitionStep c job.proposals) ⟨0, 0, 0⟩
  let total : Int := (jobs.map fun job => job.proposals).sum
  { distribution := dist
  , average_proposals := if jobs.isEmpty then 0 else (total : Rat) / (jobs.length : Rat) }

/-- The `skills` frequency dict built by `_analyze_skills` (nested loops over
jobs and each job's `skills_required`). -/
def skillCounts (jobs : List JobPost) : List (String × Nat) :=
  jobs.foldl (fun d job => job.skills_required.foldl dictIncr d) []

/-- Stable insertion step for a descending sort: the new element goes after
every element whose key is at least its own. -/
def insertDescBy {α β : Type} [LinearOrder β] (key : α → β) (x : α) : List α → List α
  | [] => [x]
  | y :: ys => if key x ≤ key y then y :: insertDescBy key x ys else x :: y :: ys

/-- Model of Python's `sorted(l, key=key, reverse=True)`: a stable sort into
descending key order (CPython's sort is stable, and `reverse=True` preserves
the relative order of equal keys). -/
def sortDescBy {α β : Type} [LinearOrder β] (key : α → β) (l : List α) : List α :=
  l.foldl (fun acc x => insertDescBy key x acc) []

/-- `UpworkJobAnalyzer._analyze_skills`: the 10 highest-count entries of the
skill dict. -/
def analyze_skills (jobs : List JobPost) : List (String × Nat) :=
  (sortDescBy (fun p => p.2) (skillCounts jobs)).take 10

/-- One entry of the `opportunities` list. -/
structure Opportunity where
  job_id : String
  title : String
  score : Int
  budget : String
  proposals : Int
  category : String
deriving DecidableEq, Repr

/-- The dict literal appended by `_find_opportunities`. -/
def toOpportunity (job : JobPost) : Opportunity :=
  { job_id := job.job_id
  , title := job.title
  , score := job.opportunity_score
  , budget := job.budget
  , proposals := job.proposals
  , category := job.category ++ "." ++ job.subcategory }

/-- `UpworkJobAnalyzer._find_opportunities`. -/
def find_opportunities (jobs : List JobPost) : List Opportunity :=
  sortDescBy (fun o => o.score)
    ((jobs.filter fun job => decide (7 ≤ job.opportunity_score)).map toOpportunity)

/-- The analysis report returned by `analyze_batch`. -/
structure Analysis where
  total_jobs : Nat
  categories : List (String × Nat)
  budgets : List (String × Nat)
  competition : CompetitionView
  top_skills : List (String × Nat)
  opportunities : List Opportunity
  processed_jobs : List JobPost
deriving DecidableEq, Repr

/-- `UpworkJobAnalyzer.analyze_batch`.  The `try/except Exception` around each
record is modelled by dropping failing records with `filterMap`: a record whose
processing raises is skipped (after logging, which has no observable effect
here) and the loop continues with the rest in order. -/
def analyze_batch (job_posts : List RawJob) : Analysis :=
  let processed_jobs := job_posts.filterMap fun job_data => (process_job_post job_data).toOption
  { total_jobs := processed_jobs.length
  , categories := analyze_categories processed_jobs
  , budgets := analyze_budgets processed_jobs
  , competition := analyze_competition processed_jobs
  , top_skills := analyze_skills processed_jobs
  , opportunities := find_opportunities processed_jobs
  , processed_jobs := processed_jobs }

/-- The sample record from `main()` (also the record of the end-to-end claim). -/
def sampleJob : RawJob :=
  { id := some "sample1"
  , title := some "React Developer Needed"
  , description := some "Looking for a React developer to build a modern web application"
  , budget := some "$500-1000"
  , timeline := some "2 weeks"
  , client_location := some "USA"
  , client_history := some "Established client"
  , proposals := some (.vint 15) }

end JobAnalyzer

namespace JobAnalyzer

/-! ### Lemmas about the stable descending sort -/

theorem insertDescBy_perm {α β : Type} [LinearOrder β] (key : α → β) (x : α) (l : List α) :
    (insertDescBy key x l).Perm (x :: l) := by
  induction l with
  | nil => exact List.Perm.refl _
  | cons y ys ih =>
    by_cases h : key x ≤ key y
    · simp only [insertDescBy, if_pos h]
      exact (ih.cons y).trans (List.Perm.swap x y ys)
    · simp only [insertDescBy, if_neg h]
      exact List.Perm.refl _

theorem insertDescBy_pairwise {α β : Type} [LinearOrder β] (key : α → β) (x : α) (l : List α)
    (h : l.Pairwise fun a b => key b ≤ key a) :
    (insertDescBy key x l).Pairwise fun a b => key b ≤ key a := by
  induction l with
  | nil => simp [insertDescBy]
  | cons y ys ih =>
    obtain ⟨hy, hys⟩ := List.pairwise_cons.mp h
    by_cases hxy : key x ≤ key y
    · simp only [insertDescBy, if_pos hxy]
      refine List.pairwise_cons.mpr ⟨?_, ih hys⟩
      intro z hz
      rcases List.mem_cons.mp ((insertDescBy_perm key x ys).mem_iff.mp hz) with rfl | hz'
      · exact hxy
      · exact hy z hz'
    · simp only [insertDescBy, if_neg hxy]
      refine List.pairwise_cons.mpr ⟨?_, h⟩
      intro z hz
      rcases List.mem_cons.mp hz with rfl | hz'
      · exact (not_le.mp hxy).le
      · exact le_trans (hy z hz') (not_le.mp hxy).le

theorem insertDescBy_filter {α β : Type} [LinearOrder β] (key : α → β) (x : α) (l : List α)
    (c : β) (h : l.Pairwise fun a b => key b ≤ key a) :
    (insertDescBy key x l).filter (fun a => decide (key a = c)) =
      if key x = c
      then l.filter (fun a => decide (key a = c)) ++ [x]
      else l.filter (fun a => decide (key a = c)) := by
  induction l with
  | nil =>
    by_cases hx : key x = c <;> simp [insertDescBy, List.filter, hx]
  | cons y ys ih =>
    obtain ⟨hy, hys⟩ := List.pairwise_cons.mp h
    by_cases hxy : key x ≤ key y
    · simp only [insertDescBy, if_pos hxy, List.filter_cons]
      rw [ih hys]
      by_cases hx : key x = c <;> by_cases hyc : key y = c <;> simp [hx, hyc]
    · have hlt : ∀ a ∈ y :: ys, key a < key x := by
        intro a ha
        rcases List.mem_cons.mp ha with rfl | ha'
        · exact not_le.mp hxy
        · exact lt_of_le_of_lt (hy a ha') (not_le.mp hxy)
      simp only [insertDescBy, if_neg hxy]
      by_cases hx : key x = c
      · have hnil : (y :: ys).filter (fun a => decide (key a = c)) = [] := by
          refine List.filter_eq_nil_iff.mpr ?_
          intro a ha
          simp only [decide_eq_true_eq]
          exact fun hc => absurd (hc ▸ hlt a ha) (by rw [hx]; exact lt_irrefl c)
        rw [if_pos hx, List.filter_cons_of_pos (by simp [hx]), hnil]
        simp
      · rw [if_neg hx, List.filter_cons_of_neg (by simp [hx])]

theorem sortDescBy_foldl_pairwise {α β : Type} [LinearOrder β] (key : α → β) (l : List α) :
    ∀ acc : List α, (acc.Pairwise fun a b => key b ≤ key a) →
      ((l.foldl (fun acc x => insertDescBy key x acc) acc).Pairwise fun a b => key b ≤ key a) := by
  induction l with
  | nil => intro acc h; exact h
  | cons x xs ih => intro acc h; exact ih _ (insertDescBy_pairwise key x acc h)

theorem sortDescBy_pairwise {α β : Type} [LinearOrder β] (key : α → β) (l : List α) :
    (sortDescBy key l).Pairwise fun a b => key b ≤ key a :=
  sortDescBy_foldl_pairwise key l [] List.Pairwise.nil

theorem sortDescBy_foldl_perm {α β : Type} [LinearOrder β] (key : α → β) (l : List α) :
    ∀ acc : List α, (l.foldl (fun acc x => insertDescBy key x acc) acc).Perm (acc ++ l) := by
  induction l with
  | nil => intro acc; simp
  | cons x xs ih =>
    intro acc
    have h1 := ih (insertDescBy key x acc)
    have h2 : (insertDescBy key x acc ++ xs).Perm ((x :: acc) ++ xs) :=
      (insertDescBy_perm key x acc).append_right xs
    have h3 : ((x :: acc) ++ xs).Perm (acc ++ x :: xs) := List.perm_middle.symm
    exact (h1.trans h2).trans h3

theorem sortDescBy_perm {α β : Type} [LinearOrder β] (key : α → β) (l : List α) :
    (sortDescBy key l).Perm l := by
  have := sortDescBy_foldl_perm key l []
  simpa [sortDescBy] using this

theorem sortDescBy_foldl_filter {α β : Type} [LinearOrder β] (key : α → β) (c : β) (l : List α) :
    ∀ acc : List α, (acc.Pairwise fun a b => key b ≤ key a) →
      (l.foldl (fun acc x => insertDescBy key x acc) acc).filter (fun a => decide (key a = c)) =
        acc.filter (fun a => decide (key a = c)) ++ l.filter (fun a => decide (key a = c)) := by
  induction l with
  | nil => intro acc _; simp
  | cons x xs ih =>
    intro acc h
    rw [List.foldl_cons, ih _ (insertDescBy_pairwise key x acc h),
      insertDescBy_filter key x acc c h, List.filter_cons]
    by_cases hx : key x = c <;> simp [hx]

theorem sortDescBy_filter {α β : Type} [LinearOrder β] (key : α → β) (c : β) (l : List α) :
    (sortDescBy key l).filter (fun a => decide (key a = c)) =
      l.filter (fun a => decide (key a = c)) := by
  have := sortDescBy_foldl_filter key c l [] List.Pairwise.nil
  simpa [sortDescBy] using this

end JobAnalyzer

namespace JobAnalyzer

/-! ### Lemmas about Python's first-maximum `max(d, key=d.get)` -/

theorem foldl_pyMaxStep_spec (ps : List (String × Nat)) (acc : String × Nat) :
    ∃ pre post, acc :: ps = pre ++ (ps.foldl pyMaxStep acc) :: post ∧
      (∀ p ∈ pre, p.2 < (ps.foldl pyMaxStep acc).2) ∧
      ∀ p ∈ acc :: ps, p.2 ≤ (ps.foldl pyMaxStep acc).2 := by
  induction ps generalizing acc with
  | nil => exact ⟨[], [], rfl, by simp, by simp⟩
  | cons q qs ih =>
    rw [List.foldl_cons]
    by_cases h : acc.2 < q.2
    · rw [show pyMaxStep acc q = q from by simp [pyMaxStep, h]]
      obtain ⟨pre, post, hd, hpre, hall⟩ := ih q
      have hq : q.2 ≤ (qs.foldl pyMaxStep q).2 := hall q (List.mem_cons_self q qs)
      refine ⟨acc :: pre, post, ?_, ?_, ?_⟩
      · rw [List.cons_append, ← hd]
      · intro p hp
        rcases List.mem_cons.mp hp with rfl | hp'
        · exact lt_of_lt_of_le h hq
        · exact hpre p hp'
      · intro p hp
        rcases List.mem_cons.mp hp with rfl | hp'
        · exact (lt_of_lt_of_le h hq).le
        · exact hall p hp'
    · rw [show pyMaxStep acc q = acc from by simp [pyMaxStep, h]]
      obtain ⟨pre, post, hd, hpre, hall⟩ := ih acc
      have hacc : acc.2 ≤ (qs.foldl pyMaxStep acc).2 := hall acc (List.mem_cons_self acc qs)
      rcases pre with _ | ⟨a, pre'⟩
      · rw [List.nil_append] at hd
        obtain ⟨h1, h2⟩ := List.cons.injEq _ _ _ _ ▸ hd
        refine ⟨[], q :: qs, ?_, by simp, ?_⟩
        · rw [List.nil_append, ← h1]
        · intro p hp
          rcases List.mem_cons.mp hp with rfl | hp'
          · exact h1 ▸ le_rfl
          · rcases List.mem_cons.mp hp' with rfl | hp''
            · exact le_trans (not_lt.mp h) hacc
            · exact hall p (List.mem_cons_of_mem acc hp'')
      · rw [List.cons_append] at hd
        obtain ⟨h1, h2⟩ := List.cons.injEq _ _ _ _ ▸ hd
        have haltr : acc.2 < (qs.foldl pyMaxStep acc).2 := by
          have := hpre a (List.mem_cons_self a pre')
          rw [← h1] at this
          exact this
        refine ⟨acc :: q :: pre', post, ?_, ?_, ?_⟩
        · rw [List.cons_append, List.cons_append, ← h2]
        · intro p hp
          rcases List.mem_cons.mp hp with rfl | hp'
          · exact haltr
          · rcases List.mem_cons.mp hp' with rfl | hp''
            · exact lt_of_le_of_lt (not_lt.mp h) haltr
            · exact hpre p (List.mem_cons_of_mem a hp'')
        · intro p hp
          rcases List.mem_cons.mp hp with rfl | hp'
          · exact haltr.le
          · rcases List.mem_cons.mp hp' with rfl | hp''
            · exact le_trans (not_lt.mp h) hacc
            · exact hall p (List.mem_cons_of_mem acc hp'')

theorem pyMaxKey_spec (l : List (String × Nat)) (hne : l ≠ []) :
    ∃ s pre post, l = pre ++ (pyMaxKey l, s) :: post ∧
      (∀ p ∈ pre, p.2 < s) ∧ ∀ p ∈ l, p.2 ≤ s := by
  match l, hne with
  | p :: ps, _ =>
    obtain ⟨pre, post, hd, hpre, hall⟩ := foldl_pyMaxStep_spec ps p
    refine ⟨(ps.foldl pyMaxStep p).2, pre, post, ?_, hpre, hall⟩
    have heta : (pyMaxKey (p :: ps), (ps.foldl pyMaxStep p).2) = ps.foldl pyMaxStep p := by
      simp [pyMaxKey]
    rw [heta, ← hd]

end JobAnalyzer

namespace JobAnalyzer

/-! ### Lemmas about the counting dict -/

theorem foldl_dictIncr_spec {κ : Type} [DecidableEq κ] (l : List κ) :
    ∀ (d : List (κ × Nat)) (C : κ → Nat),
      (∀ p ∈ d, p.2 = C p.1) →
      (∀ s, s ∉ d.map Prod.fst → C s = 0) →
      ∀ p ∈ l.foldl dictIncr d, p.2 = C p.1 + l.count p.1 := by
  induction l with
  | nil =>
    intro d C h1 h2 p hp
    simpa using h1 p hp
  | cons k ks ih =>
    intro d C h1 h2 p hp
    rw [List.foldl_cons] at hp
    have hkeys : (d.map fun p => if p.1 = k then (p.1, p.2 + 1) else p).map Prod.fst =
        d.map Prod.fst := by
      rw [List.map_map]
      refine List.map_congr_left ?_
      intro p _
      by_cases hc : p.1 = k <;> simp [hc]
    have key1 : ∀ q ∈ dictIncr d k, q.2 = (fun s => if s = k then C s + 1 else C s) q.1 := by
      intro q hq
      unfold dictIncr at hq
      by_cases hany : d.any fun p => decide (p.1 = k)
      · rw [if_pos hany] at hq
        obtain ⟨p0, hp0, hq0⟩ := List.mem_map.mp hq
        by_cases hp0k : p0.1 = k
        · rw [if_pos hp0k] at hq0
          subst hq0
          simp only [hp0k, if_pos]
          rw [← hp0k, ← h1 p0 hp0]
        · rw [if_neg hp0k] at hq0
          subst hq0
          simp only [hp0k, if_neg, if_false]
          exact h1 p0 hp0
      · rw [if_neg hany] at hq
        have hnone : ∀ p0 ∈ d, p0.1 ≠ k := by
          intro p0 hp0 hk
          exact hany (List.any_eq_true.mpr ⟨p0, hp0, by simp [hk]⟩)
        rcases List.mem_append.mp hq with hq' | hq'
        · have := hnone q hq'
          simp only [this, if_false]
          exact h1 q hq'
        · have : q = (k, 1) := by simpa using hq'
          subst this
          have hk0 : C k = 0 := by
            refine h2 k ?_
            intro hmem
            obtain ⟨p0, hp0, hfst⟩ := List.mem_map.mp hmem
            exact hnone p0 hp0 hfst
          simp [hk0]
    have key2 : ∀ s, s ∉ (dictIncr d k).map Prod.fst →
        (fun s => if s = k then C s + 1 else C s) s = 0 := by
      intro s hs
      unfold dictIncr at hs
      by_cases hany : d.any fun p => decide (p.1 = k)
      · rw [if_pos hany, hkeys] at hs
        obtain ⟨p0, hp0, hp0k⟩ := List.any_eq_true.mp hany
        have hp0k' : p0.1 = k := by simpa using hp0k
        have hsk : s ≠ k := by
          intro hsk
          exact hs (List.mem_map.mpr ⟨p0, hp0, by rw [hp0k', hsk]⟩)
        simp only [hsk, if_false]
        exact h2 s hs
      · rw [if_neg hany, List.map_append] at hs
        have hsd : s ∉ d.map Prod.fst := fun hmem => hs (List.mem_append.mpr (Or.inl hmem))
        have hsk : s ≠ k := by
          intro hsk
          exact hs (List.mem_append.mpr (Or.inr (by simp [hsk])))
        simp only [hsk, if_false]
        exact h2 s hsd
    have hmain := ih (dictIncr d k) (fun s => if s = k then C s + 1 else C s) key1 key2 p hp
    simp only at hmain
    by_cases hpk : p.1 = k
    · rw [hmain, if_pos hpk, List.count_cons, hpk]
      simp
      omega
    · rw [hmain, if_neg hpk, List.count_cons]
      simp only [beq_iff_eq]
      rw [if_neg fun h => hpk h.symm]
      omega

theorem skillCounts_flat (jobs : List JobPost) :
    skillCounts jobs = (jobs.flatMap fun j => j.skills_required).foldl dictIncr [] := by
  suffices h : ∀ (jobs : List JobPost) (d : List (String × Nat)),
      jobs.foldl (fun d job => job.skills_required.foldl dictIncr d) d =
        (jobs.flatMap fun j => j.skills_required).foldl dictIncr d by
    exact h jobs []
  intro jobs
  induction jobs with
  | nil => intro d; rfl
  | cons j js ihj =>
    intro d
    rw [List.foldl_cons, ihj, List.flatMap_cons, List.foldl_append]

theorem skillCounts_count (jobs : List JobPost) :
    ∀ p ∈ skillCounts jobs, p.2 = (jobs.flatMap fun j => j.skills_required).count p.1 := by
  intro p hp
  rw [skillCounts_flat] at hp
  have := foldl_dictIncr_spec (jobs.flatMap fun j => j.skills_required) [] (fun _ => 0)
    (by simp) (fun _ _ => rfl) p hp
  simpa using this

/-! ### Lemmas about digit-run extraction -/

theorem digitRunsAux_ne_nil (l : List Char) :
    ∀ cur : List Char, cur ≠ [] → digitRunsAux l cur ≠ [] := by
  induction l with
  | nil => intro cur h; simp [digitRunsAux, h]
  | cons c cs ih =>
    intro cur h
    by_cases hd : c.isDigit
    · simp only [digitRunsAux, if_pos hd]
      exact ih (c :: cur) (by simp)
    · simp [digitRunsAux, hd, h]

theorem digitRunsAux_eq_nil_iff (l : List Char) :
    digitRunsAux l [] = [] ↔ ∀ c ∈ l, ¬c.isDigit := by
  induction l with
  | nil => simp [digitRunsAux]
  | cons c cs ih =>
    by_cases hd : c.isDigit
    · constructor
      · intro h
        exfalso
        refine digitRunsAux_ne_nil cs [c] (by simp) ?_
        simpa [digitRunsAux, hd] using h
      · intro h
        exact absurd hd (h c (List.mem_cons_self c cs))
    · simp [digitRunsAux, hd, ih]

theorem findNumbers_eq_nil_iff (s : String) :
    findNumbers s = [] ↔ ∀ c ∈ s.toList, ¬c.isDigit := by
  rw [findNumbers, List.map_eq_nil_iff, digitRunsAux_eq_nil_iff]

theorem stripCommas_no_digits_iff (s : String) :
    (∀ c ∈ (stripCommas s).toList, ¬c.isDigit) ↔ ∀ c ∈ s.toList, ¬c.isDigit := by
  have hto : (stripCommas s).toList = s.toList.filter fun c => decide (c ≠ ',') := rfl
  rw [hto]
  constructor
  · intro h c hc
    by_cases hcomma : c = ','
    · subst hcomma
      simp [Char.isDigit]
    · exact h c (List.mem_filter.mpr ⟨hc, by simp [hcomma]⟩)
  · intro h c hc
    exact h c (List.mem_filter.mp hc).1

/-! ### The budget-tier table as an interval chain -/

theorem matchRange_budgetRanges (m : Nat) :
    matchRange budgetRanges m =
      if m < 50 then "micro"
      else if m < 500 then "small"
      else if m < 5000 then "medium"
      else "large" := by
  simp only [budgetRanges, matchRange, inRange, Bool.and_eq_true, decide_eq_true_eq]
  split_ifs <;> first | rfl | omega

end JobAnalyzer

namespace JobAnalyzer

/-- Raw record with an absent `proposals` key. -/
def rawNoProposals : RawJob := {}

/-- Raw record whose `proposals` value is a non-numeric string. -/
def rawBadProposals : RawJob := { proposals := some (.vstr "not a number") }

/-- Raw record with 30 proposals (inside the claimed `medium` bucket 10..50). -/
def job30 : RawJob := { proposals := some (.vint 30) }

/-- C1: for every `JobPost` — whatever its proposals count, budget tier, skill
count or client-history text — `calculate_opportunity_score` returns an integer
between 1 and 10. -/
theorem opportunity_score_bounds (job : JobPost) :
    1 ≤ calculate_opportunity_score job ∧ calculate_opportunity_score job ≤ 10 := by
  unfold calculate_opportunity_score
  omega

/-- C10: the score accumulated before clamping is at least 3 (base 5, budget
bonus ≥ 0, competition adjustment ≥ -2, skill bonus ≥ 0, history bonus ≥ 0), so
the lower clamp to 1 is never active and the result always lies in `[3, 10]`. -/
theorem opportunity_score_raw_lower (job : JobPost) :
    3 ≤ opportunityScoreRaw job ∧
    calculate_opportunity_score job = min (opportunityScoreRaw job) 10 ∧
    3 ≤ calculate_opportunity_score job ∧ calculate_opportunity_score job ≤ 10 := by
  have h3 : 3 ≤ opportunityScoreRaw job := by
    unfold opportunityScoreRaw budget_bonus
    split_ifs <;> omega
  refine ⟨h3, ?_, ?_, ?_⟩ <;> unfold calculate_opportunity_score <;> omega

/-- C2: `analyze_batch` is a total function of the batch — a record whose
processing raises is skipped (the `try/except` around the loop body is modelled
by `Except.toOption`/`filterMap`), the remaining records are processed in their
input order, and `total_jobs` counts exactly the records processed without an
exception. -/
theorem analyze_batch_resilient (job_posts : List RawJob) :
    (analyze_batch job_posts).total_jobs =
      (job_posts.filter fun r => (process_job_post r).toOption.isSome).length ∧
    (analyze_batch job_posts).processed_jobs =
      job_posts.filterMap fun r => (process_job_post r).toOption := by
  refine ⟨?_, rfl⟩
  show (job_posts.filterMap fun r => (process_job_post r).toOption).length = _
  induction job_posts with
  | nil => rfl
  | cons r rest ih =>
    rw [List.filterMap_cons, List.filter_cons]
    cases h : (process_job_post r).toOption <;> simp [h, ih]

/-- C3 counterexample: a processed job with 30 proposals — which the claim's
`10 <= proposals <= 50` rule would put in the `medium` bucket — is counted in
the `high` bucket by `analyze_batch` (the code's boundary is `< 25`). -/
theorem competition_bucket_cex :
    ((analyze_batch [job30]).processed_jobs.map fun j => j.proposals) = [30] ∧
    (10 ≤ (30 : Int) ∧ (30 : Int) ≤ 50) ∧
    (analyze_batch [job30]).competition.distribution.medium = 0 ∧
    (analyze_batch [job30]).competition.distribution.high = 1 :=
  ⟨rfl, by norm_num, rfl, rfl⟩

/-- C3 (amended): in the competition view produced by `analyze_batch`, each
processed job is bucketed by its proposals count as `low` when `proposals < 10`,
`medium` when `10 <= proposals < 25`, and `high` when `proposals >= 25`. -/
theorem competition_buckets_amended (job_posts : List RawJob) :
    (analyze_batch job_posts).competition.distribution.low =
      ((analyze_batch job_posts).processed_jobs.filter fun j => decide (j.proposals < 10)).length ∧
    (analyze_batch job_posts).competition.distribution.medium =
      ((analyze_batch job_posts).processed_jobs.filter fun j =>
        decide (10 ≤ j.proposals ∧ j.proposals < 25)).length ∧
    (analyze_batch job_posts).competition.distribution.high =
      ((analyze_batch job_posts).processed_jobs.filter fun j => decide (25 ≤ j.proposals)).length := by
  have hgen : ∀ (jobs : List JobPost) (c : CompetitionDist),
      (jobs.foldl (fun c job => competitionStep c job.proposals) c).low =
        c.low + (jobs.filter fun j => decide (j.proposals < 10)).length ∧
      (jobs.foldl (fun c job => competitionStep c job.proposals) c).medium =
        c.medium + (jobs.filter fun j => decide (10 ≤ j.proposals ∧ j.proposals < 25)).length ∧
      (jobs.foldl (fun c job => competitionStep c job.proposals) c).high =
        c.high + (jobs.filter fun j => decide (25 ≤ j.proposals)).length := by
    intro jobs
    induction jobs with
    | nil => intro c; simp
    | cons j js ih =>
      intro c
      obtain ⟨h1, h2, h3⟩ := ih (competitionStep c j.proposals)
      rw [List.foldl_cons] at *
      refine ⟨?_, ?_, ?_⟩ <;>
        rw [List.filter_cons] <;>
        [rw [h1]; rw [h2]; rw [h3]] <;>
        unfold competitionStep <;>
        split_ifs <;>
        simp_all <;>
        omega
  have hthis := hgen ((analyze_batch job_posts).processed_jobs) ⟨0, 0, 0⟩
  have hdist : (analyze_batch job_posts).competition.distribution =
      ((analyze_batch job_posts).processed_jobs.foldl
        (fun c job => competitionStep c job.proposals) ⟨0, 0, 0⟩) := rfl
  rw [hdist]
  simpa using hthis

/-- C4 counterexample: a record whose `proposals` value is the non-numeric
string `"not a number"` makes `process_job_post` raise (the source calls
`int(...)` on it), so the record is dropped and not counted in `total_jobs`. -/
theorem proposals_coercion_cex :
    (process_job_post rawBadProposals).toOption = none ∧
    (analyze_batch [rawBadProposals]).total_jobs = 0 :=
  ⟨rfl, rfl⟩

/-- C4 (amended): an absent `proposals` field is coerced to 0 and the record is
processed normally; a `proposals` value on which `int()` raises (e.g. a
non-numeric string) causes that single record to fail, and the failing record
is excluded from `total_jobs` while the batch continues. -/
theorem proposals_coercion_amended (r : RawJob) :
    (r.proposals = none → ∃ j, process_job_post r = Except.ok j ∧ j.proposals = 0) ∧
    (∀ e, process_job_post r = Except.error e →
      ∀ rest, (analyze_batch (r :: rest)).total_jobs = (analyze_batch rest).total_jobs) := by
  constructor
  · intro h
    unfold process_job_post
    rw [h]
    exact ⟨_, rfl, rfl⟩
  · intro e he rest
    have hopt : (process_job_post r).toOption = none := by rw [he]; rfl
    show (List.filterMap (fun job_data => (process_job_post job_data).toOption) (r :: rest)).length = _
    rw [List.filterMap_cons, hopt]
    rfl

/-- Witness for C4 (amended): the record without a `proposals` key processes to
a job with 0 proposals, and a batch led by the non-numeric record has the same
`total_jobs` as the batch without it. -/
theorem proposals_coercion_witness :
    (∃ j, process_job_post rawNoProposals = Except.ok j ∧ j.proposals = 0) ∧
    (analyze_batch (rawBadProposals :: [])).total_jobs = (analyze_batch []).total_jobs := by
  constructor
  · exact (proposals_coercion_amended rawNoProposals).1 rfl
  · exact (proposals_coercion_amended rawBadProposals).2
      "invalid literal for int() with base 10" rfl []

/-- C9 counterexample: on the spec's end-to-end record the extracted skill list
has *two* entries (`react`, and `ui` — which occurs inside the word "build"),
so the skill bonus is `min(2, 3) = 2` and the pre-clamp sum is 13, not the
claimed `+1` / `= 12`. -/
theorem end_to_end_cex :
    ((process_job_post sampleJob).toOption.map fun j => j.skills_required.length) = some 2 ∧
    ((process_job_post sampleJob).toOption.map opportunityScoreRaw) = some 13 := by
  exact ⟨by decide, by decide⟩

/-- C9 (amended): the end-to-end record yields category `web_development`,
subcategory `frontend`, budget tier `medium`, and `opportunity_score = 10`,
computed as `5 (base) + 4 (medium) + 1 (proposals 10-25) + 2 (skills "react"
and "ui", min(2,3)) + 1 (established) = 13`, clamped to 10. -/
theorem end_to_end_amended :
    ((process_job_post sampleJob).toOption.map fun j => j.category) = some "web_development" ∧
    ((process_job_post sampleJob).toOption.map fun j => j.subcategory) = some "frontend" ∧
    ((process_job_post sampleJob).toOption.map fun j => j.budget) = some "medium" ∧
    ((process_job_post sampleJob).toOption.map fun j => j.opportunity_score) = some 10 ∧
    ((process_job_post sampleJob).toOption.map opportunityScoreRaw) = some 13 ∧
    ((process_job_post sampleJob).toOption.map fun j => j.skills_required.length) = some 2 ∧
    ((process_job_post sampleJob).toOption.map fun j => j.skills_required.contains "react") = some true ∧
    ((process_job_post sampleJob).toOption.map fun j => j.skills_required.contains "ui") = some true := by
  exact ⟨by decide, by decide, by decide, by decide, by decide, by decide, by decide, by decide⟩

end JobAnalyzer

namespace JobAnalyzer

/-- C5: `extract_budget` returns `"unknown"` exactly when the budget text
contains no decimal digit (in particular for the empty string); otherwise it
returns the tier whose half-open interval contains the maximum number found
after removing comma thousands separators: `micro = [0,50)`, `small = [50,500)`,
`medium = [500,5000)`, `large = [5000,∞)`. -/
theorem extract_budget_tiers (budget_text : String) :
    ((∀ c ∈ budget_text.toList, ¬c.isDigit) ↔ extract_budget budget_text = "unknown") ∧
    (findNumbers (stripCommas budget_text) ≠ [] →
      extract_budget budget_text =
        (if (findNumbers (stripCommas budget_text)).foldl Nat.max 0 < 50 then "micro"
         else if (findNumbers (stripCommas budget_text)).foldl Nat.max 0 < 500 then "small"
         else if (findNumbers (stripCommas budget_text)).foldl Nat.max 0 < 5000 then "medium"
         else "large")) := by
  have hiff : (findNumbers (stripCommas budget_text) = []) ↔
      ∀ c ∈ budget_text.toList, ¬c.isDigit := by
    rw [findNumbers_eq_nil_iff]
    exact stripCommas_no_digits_iff budget_text
  have hmain : findNumbers (stripCommas budget_text) ≠ [] →
      extract_budget budget_text =
        (if (findNumbers (stripCommas budget_text)).foldl Nat.max 0 < 50 then "micro"
         else if (findNumbers (stripCommas budget_text)).foldl Nat.max 0 < 500 then "small"
         else if (findNumbers (stripCommas budget_text)).foldl Nat.max 0 < 5000 then "medium"
         else "large") := by
    intro hne
    have he : budget_text ≠ "" := by
      intro h0
      apply hne
      subst h0
      rfl
    show (if budget_text = "" then "unknown"
      else if findNumbers (stripCommas budget_text) = [] then "unknown"
      else matchRange budgetRanges ((findNumbers (stripCommas budget_text)).foldl Nat.max 0)) = _
    rw [if_neg he, if_neg hne, matchRange_budgetRanges]
  refine ⟨⟨?_, ?_⟩, hmain⟩
  · intro h
    by_cases he : budget_text = ""
    · subst he
      rfl
    · show (if budget_text = "" then "unknown"
        else if findNumbers (stripCommas budget_text) = [] then "unknown"
        else matchRange budgetRanges ((findNumbers (stripCommas budget_text)).foldl Nat.max 0)) = _
      rw [if_neg he, if_pos (hiff.mpr h)]
  · intro h
    by_contra hnd
    have hne : findNumbers (stripCommas budget_text) ≠ [] := fun h0 => hnd (hiff.mp h0)
    rw [hmain hne] at h
    revert h
    split_ifs <;> decide

/-- Witness for C5 at the concrete text `"$4,999"`: digits are present, and
the tier is `medium` (the interval holding 4999). -/
theorem extract_budget_tiers_witness :
    findNumbers (stripCommas "$4,999") ≠ [] ∧ extract_budget "$4,999" = "medium" := by
  refine ⟨by decide, ?_⟩
  have h := (extract_budget_tiers "$4,999").2 (by decide)
  rw [h]
  decide

/-- C7: the `opportunities` list of the report consists of exactly the
processed jobs whose `opportunity_score` is at least 7 (rendered as
`Opportunity` rows), sorted descending by score; for every score value the
equal-score rows appear exactly as in processing order (stable sort). -/
theorem opportunities_sorted_stable (job_posts : List RawJob) :
    ((analyze_batch job_posts).opportunities.Pairwise fun a b => b.score ≤ a.score) ∧
    (∀ s : Int, (analyze_batch job_posts).opportunities.filter (fun o => decide (o.score = s)) =
      (((analyze_batch job_posts).processed_jobs.filter fun job =>
        decide (7 ≤ job.opportunity_score)).map toOpportunity).filter fun o => decide (o.score = s)) ∧
    (analyze_batch job_posts).opportunities.Perm
      (((analyze_batch job_posts).processed_jobs.filter fun job =>
        decide (7 ≤ job.opportunity_score)).map toOpportunity) := by
  have hopp : (analyze_batch job_posts).opportunities =
      sortDescBy (fun o => o.score)
        (((analyze_batch job_posts).processed_jobs.filter fun job =>
          decide (7 ≤ job.opportunity_score)).map toOpportunity) := rfl
  rw [hopp]
  exact ⟨sortDescBy_pairwise _ _, fun s => sortDescBy_filter _ s _, sortDescBy_perm _ _⟩

/-- C8: `top_skills` has at most 10 entries — the most frequent skill keywords
across the processed jobs, with correct counts, sorted by nonincreasing count;
for each count value its entries are a prefix of the equally-counted entries of
the frequency dict in first-occurrence order (stable sort on count only), and
no skill left out of the table out-counts one in it. -/
theorem top_skills_top10 (job_posts : List RawJob) :
    (analyze_batch job_posts).top_skills.length ≤ 10 ∧
    ((analyze_batch job_posts).top_skills.Pairwise fun a b => b.2 ≤ a.2) ∧
    (∀ p ∈ (analyze_batch job_posts).top_skills,
      p.2 = ((analyze_batch job_posts).processed_jobs.flatMap fun j => j.skills_required).count p.1) ∧
    (∀ c : Nat, ∃ rest,
      (skillCounts (analyze_batch job_posts).processed_jobs).filter (fun p => decide (p.2 = c)) =
        ((analyze_batch job_posts).top_skills.filter fun p => decide (p.2 = c)) ++ rest) ∧
    (∀ p ∈ skillCounts (analyze_batch job_posts).processed_jobs,
      p ∉ (analyze_batch job_posts).top_skills →
      ∀ q ∈ (analyze_batch job_posts).top_skills, p.2 ≤ q.2) := by
  have htop : (analyze_batch job_posts).top_skills =
      (sortDescBy (fun p => p.2) (skillCounts (analyze_batch job_posts).processed_jobs)).take 10 :=
    rfl
  have hpw := sortDescBy_pairwise (fun p : String × Nat => p.2)
    (skillCounts (analyze_batch job_posts).processed_jobs)
  have hperm := sortDescBy_perm (fun p : String × Nat => p.2)
    (skillCounts (analyze_batch job_posts).processed_jobs)
  refine ⟨?_, ?_, ?_, ?_, ?_⟩
  · rw [htop]
    exact List.length_take_le 10 _
  · rw [htop]
    exact List.Pairwise.sublist (List.take_sublist 10 _) hpw
  · intro p hp
    rw [htop] at hp
    exact skillCounts_count _ p (hperm.mem_iff.mp (List.mem_of_mem_take hp))
  · intro c
    refine ⟨((sortDescBy (fun p : String × Nat => p.2)
      (skillCounts (analyze_batch job_posts).processed_jobs)).drop 10).filter
        fun p => decide (p.2 = c), ?_⟩
    rw [htop, ← List.filter_append, List.take_append_drop]
    exact (sortDescBy_filter (fun p : String × Nat => p.2) c _).symm
  · intro p hp hnp q hq
    rw [htop] at hnp hq
    have hp1 : p ∈ sortDescBy (fun p : String × Nat => p.2)
        (skillCounts (analyze_batch job_posts).processed_jobs) := hperm.mem_iff.mpr hp
    have hsplit := List.take_append_drop 10 (sortDescBy (fun p : String × Nat => p.2)
      (skillCounts (analyze_batch job_posts).processed_jobs))
    rw [← hsplit] at hp1
    have hpd := (List.mem_append.mp hp1).resolve_left hnp
    rw [← hsplit] at hpw
    exact (List.pairwise_append.mp hpw).2.2 q hq p hpd

/-- Raw record whose description mentions thirteen taxonomy keywords, so the
skill dict has more entries than the 10-row table keeps. -/
def skillDemo : RawJob :=
  { description :=
      some "react vue angular javascript typescript html css node python php laravel django" }

/-- Witness for C8 on a concrete batch: `react` is listed with its true count,
and the excluded `laravel` does not out-count the included `react`. -/
theorem top_skills_witness :
    ("react", 1).2 =
      (((analyze_batch [skillDemo]).processed_jobs.flatMap fun j => j.skills_required).count
        ("react", 1).1) ∧
    ("laravel", 1).2 ≤ ("react", 1).2 := by
  constructor
  · exact (top_skills_top10 [skillDemo]).2.2.1 ("react", 1) (by decide)
  · exact (top_skills_top10 [skillDemo]).2.2.2.2 ("laravel", 1) (by decide) (by decide)
      ("react", 1) (by decide)

end JobAnalyzer

namespace JobAnalyzer

/-- Python's `max` never replaces the running maximum on a tie or smaller
value, so a fold over elements no larger than the accumulator returns it. -/
theorem foldl_pyMaxStep_const (xs : List (String × Nat)) :
    ∀ b : String × Nat, (∀ p ∈ xs, p.2 ≤ b.2) → xs.foldl pyMaxStep b = b := by
  induction xs with
  | nil => intro b _; rfl
  | cons q qs ih =>
    intro b h
    rw [List.foldl_cons]
    have hq : pyMaxStep b q = b := by
      unfold pyMaxStep
      rw [if_neg (not_lt.mpr (h q (List.mem_cons_self q qs)))]
    rw [hq]
    exact ih b fun p hp => h p (List.mem_cons_of_mem q hp)

/-- On an all-zero score dict the first key wins the maximum. -/
theorem pyMaxKey_zero (x : String × Nat) (xs : List (String × Nat))
    (h : ∀ p ∈ x :: xs, p.2 = 0) : pyMaxKey (x :: xs) = x.1 := by
  show (xs.foldl pyMaxStep x).1 = x.1
  rw [foldl_pyMaxStep_const xs x fun p hp => by
    rw [h p (List.mem_cons_of_mem x hp), h x (List.mem_cons_self x xs)]]

/-- A category score of zero forces zero keyword hits in every subcategory. -/
theorem categoryScore_eq_zero (subs : List (String × List String)) (text : String)
    (h : categoryScore subs text = 0) :
    ∀ sp ∈ subs, keywordHits sp.2 text = 0 := by
  intro sp hsp
  unfold categoryScore at h
  exact List.sum_eq_zero_iff.mp h _ (List.mem_map.mpr ⟨sp, hsp, rfl⟩)

set_option maxHeartbeats 1600000 in
/-- C6: `categorize_job` always returns a pair whose first component is a
taxonomy category and whose second is a subcategory under it; the category is
the *first* entry of the insertion-ordered score dict attaining the maximal
keyword-hit count (every earlier entry scores strictly less, no entry scores
more), the subcategory is chosen the same way within the winning category, and
when no keyword matches at all (all scores zero) the result is the first
declared pair `("web_development", "frontend")`. -/
theorem categorize_job_argmax (skills : List String) (title description : String) :
    ((categorize_job skills title description).1 ∈ skillKeywords.map Prod.fst) ∧
    ((categorize_job skills title description).2 ∈
      ((skillKeywords.lookup (categorize_job skills title description).1).getD []).map Prod.fst) ∧
    (∃ s pre post,
      categoryScores title description =
        pre ++ ((categorize_job skills title description).1, s) :: post ∧
      (∀ p ∈ pre, p.2 < s) ∧ ∀ p ∈ categoryScores title description, p.2 ≤ s) ∧
    (∃ s pre post,
      subcategoryScores (categorize_job skills title description).1 title description =
        pre ++ ((categorize_job skills title description).2, s) :: post ∧
      (∀ p ∈ pre, p.2 < s) ∧
        ∀ p ∈ subcategoryScores (categorize_job skills title description).1 title description,
          p.2 ≤ s) ∧
    ((∀ p ∈ categoryScores title description, p.2 = 0) →
      categorize_job skills title description = ("web_development", "frontend")) := by
  have hfst : (categorize_job skills title description).1 =
      pyMaxKey (categoryScores title description) := rfl
  have hsnd : (categorize_job skills title description).2 =
      pyMaxKey (subcategoryScores (categorize_job skills title description).1 title description) :=
    rfl
  have hcs_ne : categoryScores title description ≠ [] := by
    simp [categoryScores, skillKeywords]
  obtain ⟨s, pre, post, hdec, hpre, hall⟩ :=
    pyMaxKey_spec (categoryScores title description) hcs_ne
  have hmem0 : (pyMaxKey (categoryScores title description), s) ∈
      pre ++ (pyMaxKey (categoryScores title description), s) :: post :=
    List.mem_append.mpr (Or.inr (List.mem_cons_self _ _))
  rw [← hdec] at hmem0
  have hmain_mem : (categorize_job skills title description).1 ∈
      (categoryScores title description).map Prod.fst := by
    rw [hfst]
    exact List.mem_map.mpr ⟨(pyMaxKey (categoryScores title description), s), hmem0, rfl⟩
  have hkeys : (categoryScores title description).map Prod.fst = skillKeywords.map Prod.fst := by
    simp [categoryScores, List.map_map]
  have hmain4 : (categorize_job skills title description).1 = "web_development" ∨
      (categorize_job skills title description).1 = "mobile_apps" ∨
      (categorize_job skills title description).1 = "ai_ml" ∨
      (categorize_job skills title description).1 = "design" := by
    have h := hmain_mem
    rw [hkeys] at h
    simpa [skillKeywords] using h
  have hss_ne : subcategoryScores (categorize_job skills title description).1 title description
      ≠ [] := by
    rcases hmain4 with h | h | h | h <;>
      rw [h] <;>
      simp only [subcategoryScores, ne_eq, List.map_eq_nil_iff] <;>
      decide
  obtain ⟨s2, pre2, post2, hdec2, hpre2, hall2⟩ :=
    pyMaxKey_spec (subcategoryScores (categorize_job skills title description).1 title description)
      hss_ne
  have hmem2 : (pyMaxKey (subcategoryScores (categorize_job skills title description).1
      title description), s2) ∈
      pre2 ++ (pyMaxKey (subcategoryScores (categorize_job skills title description).1
        title description), s2) :: post2 :=
    List.mem_append.mpr (Or.inr (List.mem_cons_self _ _))
  rw [← hdec2] at hmem2
  refine ⟨?_, ?_, ?_, ?_, ?_⟩
  · rw [← hkeys]
    exact hmain_mem
  · have hsub_mem : (categorize_job skills title description).2 ∈
        (subcategoryScores (categorize_job skills title description).1 title
          description).map Prod.fst := by
      rw [hsnd]
      exact List.mem_map.mpr ⟨_, hmem2, rfl⟩
    have hkeys2 : (subcategoryScores (categorize_job skills title description).1 title
        description).map Prod.fst =
        ((skillKeywords.lookup (categorize_job skills title description).1).getD []).map
          Prod.fst := by
      simp [subcategoryScores, List.map_map]
    rw [← hkeys2]
    exact hsub_mem
  · exact ⟨s, pre, post, by rw [← hfst] at hdec; exact hdec, hpre, hall⟩
  · exact ⟨s2, pre2, post2, by rw [← hsnd] at hdec2; exact hdec2, hpre2, hall2⟩
  · intro h0
    have hweb : ("web_development",
        categoryScore ((skillKeywords.lookup "web_development").getD [])
          (lowerStr (title ++ " " ++ description))) ∈ categoryScores title description :=
      List.mem_cons_self _ _
    have hz : categoryScore ((skillKeywords.lookup "web_development").getD [])
        (lowerStr (title ++ " " ++ description)) = 0 := h0 _ hweb
    have hcons : ∃ c0 tail, categoryScores title description = ("web_development", c0) :: tail :=
      ⟨_, _, rfl⟩
    obtain ⟨c0, tail, hcons⟩ := hcons
    have hmainz : (categorize_job skills title description).1 = "web_development" := by
      rw [hfst, hcons]
      exact pyMaxKey_zero _ _ (by rw [← hcons]; exact h0)
    have hsubz : ∀ p ∈ subcategoryScores "web_development" title description, p.2 = 0 := by
      intro p hp
      obtain ⟨sp, hsp, hpe⟩ := List.mem_map.mp hp
      rw [← hpe]
      exact categoryScore_eq_zero _ _ hz sp hsp
    have hsub_cons : ∃ k0 tail2,
        subcategoryScores "web_development" title description = ("frontend", k0) :: tail2 :=
      ⟨_, _, rfl⟩
    obtain ⟨k0, tail2, hsub_cons⟩ := hsub_cons
    have hsubw : (categorize_job skills title description).2 = "frontend" := by
      rw [hsnd, hmainz, hsub_cons]
      exact pyMaxKey_zero _ _ (by rw [← hsub_cons]; exact hsubz)
    refine Prod.ext ?_ ?_
    · exact hmainz
    · exact hsubw

/-- Witness for C6 at a text matching no taxonomy keyword: the classifier
falls through to the first declared pair. -/
theorem categorize_job_argmax_witness :
    categorize_job [] "qqq" "" = ("web_development", "frontend") :=
  (categorize_job_argmax [] "qqq" "").2.2.2.2 (by decide)

end JobAnalyzer
